import Mathlib

/-!
# jfio: the liburing wrapper `libjfio.c`

A shallow embedding of `src/main/c/libjfio.c` (`create_ring`,
`submit_and_check_completions`, `open_file`, `close_file`) together with a
sequential model of the part of liburing and of the kernel the wrapper talks to.

* C `int` / `long` values are `Int`, unsigned values are `Nat`; every C conversion
  between them is written out (`to_unsigned`, `to_signed`).  The data model is
  LP64 (x86-64 Linux): `int` is 32 bits, `long`, `uintptr_t` and pointers 64 bits.
* The ring is explicit state.  The submission queue is the list of free slots
  (with whatever an earlier use left in them) and the list of slots acquired and
  not yet handed to the kernel; the completion queue is the list of ready
  completions starting at the consumer position.
* The kernel is a parameter (`Kernel`): whatever it posts when it is entered is
  appended at the tail of the completion queue.  A theorem quantified over the
  kernel holds for every such behaviour.
* The model is sequential: one caller drives the ring, and the kernel acts inside the
  library calls that enter it.  The return codes of `io_uring_submit`,
  `io_uring_peek_cqe` and `io_uring_wait_cqe`, which the wrapper does not look at, are
  not represented.
* Counters of the wrapper (`nr_submitted`, `nr_completed`, `i`) are bounded by the queue
  sizes (at most 32768 and 65536 entries), so their increments are written without wrap;
  the consumer position of the completion queue is a free-running 32-bit counter and wraps.
-/

set_option autoImplicit false

namespace Jfio

/-! ## Machine integers -/

/-- C conversion of an integer to an unsigned type of `w` bits. -/
def to_unsigned (w : Nat) (x : Int) : Nat := (x % (2 : Int) ^ w).toNat

/-- C conversion of an integer to a signed type of `w` bits (wrap modulo `2^w`). -/
def to_signed (w : Nat) (x : Int) : Int :=
  if x % (2 : Int) ^ w < (2 : Int) ^ (w - 1) then x % (2 : Int) ^ w
  else x % (2 : Int) ^ w - (2 : Int) ^ w

/-- Range of a C `int`. -/
def is_int (x : Int) : Prop := -2147483648 ≤ x ∧ x < 2147483648

/-- Range of a C `long` (LP64). -/
def is_long (x : Int) : Prop := -9223372036854775808 ≤ x ∧ x < 9223372036854775808

instance (x : Int) : Decidable (is_int x) :=
  inferInstanceAs (Decidable (-2147483648 ≤ x ∧ x < 2147483648))

instance (x : Int) : Decidable (is_long x) :=
  inferInstanceAs (Decidable (-9223372036854775808 ≤ x ∧ x < 9223372036854775808))

/-! ## Constants of the system headers (Linux, x86-64) -/

/-- Setup flag `IORING_SETUP_IOPOLL` (`1U << 0`). -/
def IORING_SETUP_IOPOLL : Nat := 1

/-- Setup flag `IORING_SETUP_SQPOLL` (`1U << 1`). -/
def IORING_SETUP_SQPOLL : Nat := 2

/-- Open flag `O_RDONLY`. -/
def O_RDONLY : Nat := 0

/-- Open flag `O_RDWR`. -/
def O_RDWR : Nat := 2

/-- Mask `O_ACCMODE` of the access-mode bits. -/
def O_ACCMODE : Nat := 3

/-- Open flag `O_DIRECT` (octal 040000). -/
def O_DIRECT : Nat := 16384

/-- Special descriptor `AT_FDCWD`: resolve a relative path against the working directory. -/
def AT_FDCWD : Int := -100

/-- Largest queue depth `io_uring_setup` accepts (`IORING_MAX_ENTRIES`). -/
def IORING_MAX_ENTRIES : Nat := 32768

/-! ## Data model -/

/-- Operation codes of the submission entries the wrapper builds. -/
inductive Opcode
  | IORING_OP_NOP
  | IORING_OP_OPENAT
  | IORING_OP_CLOSE
  | IORING_OP_READ
  | IORING_OP_WRITE
  deriving DecidableEq, Repr

/-- Submission queue entry (`struct io_uring_sqe`), the fields written by the `prep`
helpers of liburing used here: `op_flags` is the union `rw_flags` / `open_flags`. -/
structure io_uring_sqe where
  opcode : Opcode
  fd : Int
  off : Nat
  addr : Nat
  len : Nat
  op_flags : Nat
  user_data : Nat
  deriving DecidableEq, Repr

/-- Completion queue entry (`struct io_uring_cqe`): the 64-bit tag and the signed result. -/
structure io_uring_cqe where
  user_data : Nat
  res : Int
  deriving DecidableEq, Repr

/-- One request of a batch (`struct submission`).  The field `is_read` is the one
`submit_and_check_completions` tests (`submissions->is_read`); the copy of `libjfio.h`
at hand declares the other five fields only, so it is taken as a C truth value. -/
structure submission where
  id : Int
  fd : Int
  buf_length : Int
  buf_base : Nat
  offset : Int
  is_read : Bool
  deriving DecidableEq, Repr

/-- Every field of the request is in the range of its C type. -/
def submission.wf (s : submission) : Prop :=
  is_int s.id ∧ is_int s.fd ∧ is_int s.buf_length ∧ s.buf_base < 2 ^ 64 ∧ is_long s.offset

instance (s : submission) : Decidable s.wf :=
  inferInstanceAs (Decidable
    (is_int s.id ∧ is_int s.fd ∧ is_int s.buf_length ∧ s.buf_base < 2 ^ 64 ∧ is_long s.offset))

/-- Output of one batch call (`struct submission_and_completion_result`).  The two
arrays are caller-owned memory indexed by a C `int`. -/
structure submission_and_completion_result where
  nr_submitted : Int
  nr_completed : Int
  completed_res : Int → Int
  completed_ids : Int → Int

/-- Array store `a[i] = v`. -/
def store (a : Int → Int) (i v : Int) : Int → Int := fun j => if j = i then v else a j

/-- State of a ring (`struct io_uring` and the queues it maps).
`sq_free`: the free submission slots in the order `io_uring_get_sqe` hands them out.
`sq`: the slots acquired and not yet consumed by the kernel, oldest first.
`cq`: the ready completions from the consumer position on, in delivery order.
`cq_head`: the consumer position `*cq.khead`, a free-running 32-bit counter. -/
structure io_uring where
  flags : Nat
  sq_free : List io_uring_sqe
  sq : List io_uring_sqe
  cq : List io_uring_cqe
  cq_head : Nat
  deriving DecidableEq, Repr

/-- Behaviour of the kernel behind a ring, over a kernel state `κ`.
`enter`: what `io_uring_enter` posts when handed the pending entries.
`poll`: what a non-blocking look at the completion side posts.
`wait`: a blocking wait on an empty completion queue; it posts at least one completion. -/
structure Kernel (κ : Type) where
  enter : κ → List io_uring_sqe → κ × List io_uring_cqe
  poll : κ → κ × List io_uring_cqe
  wait : κ → κ × io_uring_cqe × List io_uring_cqe

/-- Calls into liburing that reach the kernel or move the consumer position. -/
inductive Call
  | submit (sqes : List io_uring_sqe)
  | peek_cqe
  | wait_cqe
  | cq_advance (nr : Nat)
  deriving DecidableEq, Repr

/-- The ring, the kernel behind it and the record of the calls made so far. -/
structure World (κ : Type) where
  ring : io_uring
  kern : κ
  calls : List Call

/-- Entries flushed to the kernel by the calls of a record, in order. -/
def flushed : List Call → List io_uring_sqe
  | [] => []
  | Call.submit sqes :: rest => sqes ++ flushed rest
  | _ :: rest => flushed rest

/-! ## liburing -/

variable {κ : Type}

/-- Model of `io_uring_get_sqe`: the next free slot, or `none` (NULL) when the queue is full.
The pointer into the ring is modelled by taking the slot out; `sq_commit` puts the
filled slot at the tail of the pending entries. -/
def io_uring_get_sqe (w : World κ) : Option (io_uring_sqe × World κ) :=
  match w.ring.sq_free with
  | [] => none
  | slot :: rest => some (slot, { w with ring := { w.ring with sq_free := rest } })

/-- The slot obtained from `io_uring_get_sqe`, once filled, is the newest pending entry. -/
def sq_commit (w : World κ) (sqe : io_uring_sqe) : World κ :=
  { w with ring := { w.ring with sq := w.ring.sq ++ [sqe] } }

/-- Model of `io_uring_prep_rw`: sets every field of the slot but the tag. -/
def io_uring_prep_rw (op : Opcode) (sqe : io_uring_sqe) (fd : Int) (addr : Nat) (len : Nat)
    (offset : Nat) : io_uring_sqe :=
  { sqe with opcode := op, fd := fd, off := offset, addr := addr, len := len, op_flags := 0 }

/-- Model of `io_uring_prep_read(sqe, fd, buf, nbytes, offset)`, `nbytes` unsigned, `offset`
`__u64`. -/
def io_uring_prep_read (sqe : io_uring_sqe) (fd : Int) (buf : Nat) (nbytes : Nat)
    (offset : Nat) : io_uring_sqe :=
  io_uring_prep_rw Opcode.IORING_OP_READ sqe fd buf nbytes offset

/-- Model of `io_uring_prep_write(sqe, fd, buf, nbytes, offset)`. -/
def io_uring_prep_write (sqe : io_uring_sqe) (fd : Int) (buf : Nat) (nbytes : Nat)
    (offset : Nat) : io_uring_sqe :=
  io_uring_prep_rw Opcode.IORING_OP_WRITE sqe fd buf nbytes offset

/-- Model of `io_uring_prep_openat(sqe, dfd, path, flags, mode)`: `mode` travels in `len`. -/
def io_uring_prep_openat (sqe : io_uring_sqe) (dfd : Int) (path : Nat) (flags : Nat)
    (mode : Nat) : io_uring_sqe :=
  { io_uring_prep_rw Opcode.IORING_OP_OPENAT sqe dfd path mode 0 with op_flags := flags }

/-- Model of `io_uring_prep_close(sqe, fd)`. -/
def io_uring_prep_close (sqe : io_uring_sqe) (fd : Int) : io_uring_sqe :=
  io_uring_prep_rw Opcode.IORING_OP_CLOSE sqe fd 0 0 0

/-- Model of `io_uring_sqe_set_data(sqe, data)`: `sqe->user_data = (unsigned long) data`. -/
def io_uring_sqe_set_data (sqe : io_uring_sqe) (data : Nat) : io_uring_sqe :=
  { sqe with user_data := data % 2 ^ 64 }

/-- Model of `io_uring_cqe_get_data(cqe)`: `(void *) (uintptr_t) cqe->user_data`. -/
def io_uring_cqe_get_data (cqe : io_uring_cqe) : Nat := cqe.user_data % 2 ^ 64

/-- Model of `io_uring_submit`: every pending entry is handed to the kernel, its slot becomes free
again, and what the kernel posts meanwhile is appended to the completion queue. -/
def io_uring_submit (K : Kernel κ) (w : World κ) : World κ :=
  { ring := { w.ring with
              sq := [],
              sq_free := w.ring.sq_free ++ w.ring.sq,
              cq := w.ring.cq ++ (K.enter w.kern w.ring.sq).2 },
    kern := (K.enter w.kern w.ring.sq).1,
    calls := w.calls ++ [Call.submit w.ring.sq] }

/-- Model of `io_uring_peek_cqe`, after its manual page: lets the kernel post
what is ready and returns the first ready completion, if any, without moving the consumer
position.  (What the library does with its own timeout tag on kernels without
`IORING_FEAT_EXT_ARG` is left out.) -/
def io_uring_peek_cqe (K : Kernel κ) (w : World κ) : World κ × Option io_uring_cqe :=
  ({ ring := { w.ring with cq := w.ring.cq ++ (K.poll w.kern).2 },
     kern := (K.poll w.kern).1,
     calls := w.calls ++ [Call.peek_cqe] },
   (w.ring.cq ++ (K.poll w.kern).2).head?)

/-- Model of `io_uring_wait_cqe`: the first ready completion; blocks in the kernel only when none
is ready.  The consumer position does not move. -/
def io_uring_wait_cqe (K : Kernel κ) (w : World κ) : World κ × io_uring_cqe :=
  match w.ring.cq with
  | c :: _ => ({ w with calls := w.calls ++ [Call.wait_cqe] }, c)
  | [] =>
    ({ ring := { w.ring with cq := (K.wait w.kern).2.1 :: (K.wait w.kern).2.2 },
       kern := (K.wait w.kern).1,
       calls := w.calls ++ [Call.wait_cqe] },
     (K.wait w.kern).2.1)

/-- Model of `io_uring_cq_advance(ring, nr)`: the consumer position moves by `nr` (32-bit counter),
so the first `nr` ready completions are gone from the queue. -/
def io_uring_cq_advance (w : World κ) (nr : Nat) : World κ :=
  { w with
    ring := { w.ring with cq := w.ring.cq.drop nr, cq_head := (w.ring.cq_head + nr) % 2 ^ 32 },
    calls := w.calls ++ [Call.cq_advance nr] }

/-- Power of two the kernel rounds a queue depth up to. -/
def roundup_pow_of_two (n : Nat) : Nat :=
  (((List.range 16).map (fun e => 2 ^ e)).find? (fun p => decide (n ≤ p))).getD IORING_MAX_ENTRIES

/-- An untouched slot of a freshly mapped queue. -/
def zero_sqe : io_uring_sqe :=
  { opcode := Opcode.IORING_OP_NOP, fd := 0, off := 0, addr := 0, len := 0, op_flags := 0,
    user_data := 0 }

/-- Model of `io_uring_queue_init(entries, ring, flags)`: the return code (0 or a negated errno) and
the ring object it leaves behind (`none`: not initialised).  `resources` says whether the
kernel can provide the memory and descriptors the queue needs. -/
def io_uring_queue_init (resources : Bool) (entries : Nat) (flags : Nat) :
    Int × Option io_uring :=
  if entries = 0 ∨ IORING_MAX_ENTRIES < entries then (-22, none)
  else if resources = false then (-12, none)
  else (0, some { flags := flags,
                  sq_free := List.replicate (roundup_pow_of_two entries) zero_sqe,
                  sq := [], cq := [], cq_head := 0 })

/-! ## libjfio.c -/

/-- Lines 11 to 17 of `create_ring`: the setup flags. -/
def setup_flags (enableSQPoll enableIOPoll : Bool) : Nat :=
  let flags := 0
  let flags := if enableSQPoll then flags ||| IORING_SETUP_SQPOLL else flags
  let flags := if enableIOPoll then flags ||| IORING_SETUP_IOPOLL else flags
  flags

/-- Embedding of `create_ring`.  `p` is the address `malloc` returned for the ring object.
The result is the returned pointer and the ring object found at it; the return code of
`io_uring_queue_init` is not looked at. -/
def create_ring (p : Nat) (resources : Bool) (depth : Int) (enableSQPoll enableIOPoll : Bool) :
    Nat × Option io_uring :=
  let ring := p
  let init := io_uring_queue_init resources (to_unsigned 32 depth)
    (setup_flags enableSQPoll enableIOPoll)
  (ring, init.2)

/-- The tag of a request: `(void*) (uintptr_t) submissions->id`. -/
def id_to_data (id : Int) : Nat := to_unsigned 64 id

/-- The id read back from a completion: `(long) io_uring_cqe_get_data(cqe)` stored into
an `int` element of `completed_ids`. -/
def cqe_id (cqe : io_uring_cqe) : Int :=
  to_signed 32 (to_signed 64 (io_uring_cqe_get_data cqe))

/-- Body of the submission loop for one request and the slot obtained for it. -/
def fill_sqe (sqe : io_uring_sqe) (s : submission) : io_uring_sqe :=
  io_uring_sqe_set_data
    (if s.is_read then
      io_uring_prep_read sqe s.fd s.buf_base (to_unsigned 32 s.buf_length)
        (to_unsigned 64 s.offset)
    else
      io_uring_prep_write sqe s.fd s.buf_base (to_unsigned 32 s.buf_length)
        (to_unsigned 64 s.offset))
    (id_to_data s.id)

/-- The loop `for (int i = 0; i < nr_submissions; i++)` over the requests still to
visit, with the current `res` and `has_submitted`. -/
def submit_loop : World κ → List submission → submission_and_completion_result → Bool →
    World κ × submission_and_completion_result × Bool
  | w, [], res, has_submitted => (w, res, has_submitted)
  | w, s :: rest, res, has_submitted =>
    match io_uring_get_sqe w with
    | none => (w, res, has_submitted)
    | some (sqe, w1) =>
      submit_loop (sq_commit w1 (fill_sqe sqe s)) rest
        { res with nr_submitted := res.nr_submitted + 1 } true

/-- The loop `io_uring_for_each_cqe(ring, head, cqe)` over the ready completions, with the
current `res` and counter `i`. -/
def reap_loop : List io_uring_cqe → submission_and_completion_result → Nat →
    submission_and_completion_result × Nat
  | [], res, i => (res, i)
  | cqe :: rest, res, i =>
    reap_loop rest
      { res with
        completed_res := store res.completed_res res.nr_completed cqe.res,
        completed_ids := store res.completed_ids res.nr_completed (cqe_id cqe),
        nr_completed := res.nr_completed + 1 }
      (i + 1)

/-- First half of `submit_and_check_completions`: the counters are reset, the requests
are pushed while there is room, then the queue is flushed or, on a completion-polling
ring with nothing pushed, peeked.  The result is the state at the reap step. -/
def submit_phase (K : Kernel κ) (w : World κ) (submissions : List submission)
    (res : submission_and_completion_result) :
    World κ × submission_and_completion_result :=
  let res := { res with nr_submitted := 0, nr_completed := 0 }
  let r := submit_loop w submissions res false
  if r.2.2 then (io_uring_submit K r.1, r.2.1)
  else if r.1.ring.flags &&& IORING_SETUP_IOPOLL ≠ 0 then ((io_uring_peek_cqe K r.1).1, r.2.1)
  else (r.1, r.2.1)

/-- Embedding of `submit_and_check_completions(ring, submissions, nr_submissions, res)`; the
array and
its length are the list `submissions`. -/
def submit_and_check_completions (K : Kernel κ) (w : World κ) (submissions : List submission)
    (res : submission_and_completion_result) :
    World κ × submission_and_completion_result :=
  let m := submit_phase K w submissions res
  let r := reap_loop m.1.ring.cq m.2 0
  (io_uring_cq_advance m.1 r.2, r.1)

/-- Lines 91 to 97 of `open_file`: the open flags. -/
def open_flags (readOnly direct : Bool) : Nat :=
  let flags := O_RDWR
  let flags := if readOnly then O_RDONLY else flags
  let flags := if direct then flags ||| O_DIRECT else flags
  flags

/-- Embedding of `open_file(ring, path, readOnly, direct)`; `path` is the address of the string. -/
def open_file (K : Kernel κ) (w : World κ) (path : Nat) (readOnly direct : Bool) :
    World κ × Int :=
  match io_uring_get_sqe w with
  | none => (w, -1)
  | some (sqe, w1) =>
    let w2 := sq_commit w1 (io_uring_prep_openat sqe (-1) path (open_flags readOnly direct) 0)
    let w3 := io_uring_submit K w2
    let r := io_uring_wait_cqe K w3
    (r.1, r.2.res)

/-- Embedding of `close_file(ring, fd)`. -/
def close_file (K : Kernel κ) (w : World κ) (fd : Int) : World κ × Int :=
  match io_uring_get_sqe w with
  | none => (w, -1)
  | some (sqe, w1) =>
    let w2 := sq_commit w1 (io_uring_prep_close sqe fd)
    let w3 := io_uring_submit K w2
    let r := io_uring_wait_cqe K w3
    (r.1, r.2.res)

/-- Closed form of the state in which the submission loop leaves the ring: the first
free slots, filled from the first requests, have moved to the pending entries. -/
def after_loop (w : World κ) (subs : List submission) : World κ :=
  { w with ring := { w.ring with
      sq_free := w.ring.sq_free.drop subs.length,
      sq := w.ring.sq ++ List.zipWith fill_sqe w.ring.sq_free subs } }

/-! ## A reference kernel

Used to evaluate the wrapper on concrete inputs: every entry is executed when the
queue is flushed and its completion is posted at once, carrying the tag of its entry. -/

/-- State of the reference kernel: the descriptors open in the process and the addresses
of the path strings that name an existing file. -/
structure KState where
  open_fds : List Int
  files : List Nat
  deriving DecidableEq, Repr

/-- Lowest descriptor number not in use. -/
def lowest_free_fd (fds : List Int) : Int :=
  Int.ofNat
    (((List.range (fds.length + 1)).find? (fun n => decide (¬ Int.ofNat n ∈ fds))).getD
      fds.length)

/-- Execution of one entry by the reference kernel.  Paths are taken as absolute, so the
directory descriptor of an open request is not looked at. -/
def exec_sqe (k : KState) (q : io_uring_sqe) : KState × io_uring_cqe :=
  match q.opcode with
  | Opcode.IORING_OP_NOP => (k, { user_data := q.user_data, res := 0 })
  | Opcode.IORING_OP_OPENAT =>
    if q.addr ∈ k.files then
      ({ k with open_fds := lowest_free_fd k.open_fds :: k.open_fds },
       { user_data := q.user_data, res := lowest_free_fd k.open_fds })
    else (k, { user_data := q.user_data, res := -2 })
  | Opcode.IORING_OP_CLOSE =>
    if q.fd ∈ k.open_fds then
      ({ k with open_fds := k.open_fds.erase q.fd }, { user_data := q.user_data, res := 0 })
    else (k, { user_data := q.user_data, res := -9 })
  | Opcode.IORING_OP_READ =>
    if q.fd ∈ k.open_fds then (k, { user_data := q.user_data, res := q.len })
    else (k, { user_data := q.user_data, res := -9 })
  | Opcode.IORING_OP_WRITE =>
    if q.fd ∈ k.open_fds then (k, { user_data := q.user_data, res := q.len })
    else (k, { user_data := q.user_data, res := -9 })

/-- Execution of the flushed entries in order. -/
def exec_all : KState → List io_uring_sqe → KState × List io_uring_cqe
  | k, [] => (k, [])
  | k, q :: rest =>
    ((exec_all (exec_sqe k q).1 rest).1, (exec_sqe k q).2 :: (exec_all (exec_sqe k q).1 rest).2)

/-- The reference kernel.  Nothing is ever left in flight, so a blocking wait on an empty
queue has nothing to wait for; the interrupted-wait completion given for it is not reached
by a wait that follows a flush. -/
def inline_kernel : Kernel KState :=
  { enter := exec_all,
    poll := fun k => (k, []),
    wait := fun k => (k, { user_data := 0, res := -4 }, []) }

/-- A process with the three standard descriptors open and one existing file, whose path
string is at address 4096. -/
def k0 : KState := { open_fds := [0, 1, 2], files := [4096] }

/-- An idle ring of depth 4 behind the reference kernel. -/
def idle4 (flags : Nat) : World KState :=
  { ring := { flags := flags, sq_free := List.replicate 4 zero_sqe, sq := [], cq := [],
              cq_head := 0 },
    kern := k0, calls := [] }

/-- An idle ring of depth 4 behind the reference kernel, in a process that also has
descriptor 3 open. -/
def open4 : World KState :=
  { ring := { flags := 0, sq_free := List.replicate 4 zero_sqe, sq := [], cq := [],
              cq_head := 0 },
    kern := { open_fds := [0, 1, 2, 3], files := [4096] }, calls := [] }

/-- Caller-owned result structure before a call. -/
def res0 : submission_and_completion_result :=
  { nr_submitted := 7, nr_completed := 7, completed_res := fun _ => 0,
    completed_ids := fun _ => 0 }

/-- A read (or write) of 512 bytes on descriptor 3 at offset 0, with the given id. -/
def req (id : Int) ( is_read : Bool) : submission :=
  { id := id, fd := 3, buf_length := 512, buf_base := 65536, offset := 0, is_read := is_read }

/-- A ring of depth 4 behind the reference kernel with descriptor 3 open, one slot in
use, two completions ready (the first tagged with the id -7 and carrying an error code)
and the consumer position at the last value of the 32-bit counter. -/
def busy4 : World KState :=
  { ring := { flags := IORING_SETUP_SQPOLL,
              sq_free := List.replicate 3 zero_sqe,
              sq := [fill_sqe zero_sqe (req 8 true)],
              cq := [{ user_data := id_to_data (-7), res := -5 }, { user_data := 9, res := 512 }],
              cq_head := 4294967295 },
    kern := { open_fds := [0, 1, 2, 3], files := [4096] }, calls := [] }


/-! ## Lemmas on the loops -/

theorem submit_loop_eq (subs : List submission) :
    ∀ (w : World κ) (res : submission_and_completion_result) (hs : Bool),
      submit_loop w subs res hs =
        ({ w with ring := { w.ring with
              sq_free := w.ring.sq_free.drop subs.length,
              sq := w.ring.sq ++ List.zipWith fill_sqe w.ring.sq_free subs } },
         { res with nr_submitted :=
              res.nr_submitted + ((min subs.length w.ring.sq_free.length : Nat) : Int) },
         hs || decide (0 < min subs.length w.ring.sq_free.length)) := by
  induction subs with
  | nil => intro w res hs; simp [submit_loop]
  | cons s rest ih =>
    intro w res hs
    rcases w with ⟨⟨fl, fr, sq, cq, hd⟩, k, calls⟩
    cases fr with
    | nil => simp [submit_loop, io_uring_get_sqe]
    | cons slot fr =>
      simp only [submit_loop, io_uring_get_sqe, ih, sq_commit]
      simp
      omega

theorem reap_loop_count (cs : List io_uring_cqe) :
    ∀ (res : submission_and_completion_result) (i : Nat),
      (reap_loop cs res i).2 = i + cs.length := by
  induction cs with
  | nil => intro res i; simp [reap_loop]
  | cons c rest ih => intro res i; simp only [reap_loop, ih, List.length_cons]; omega

theorem reap_loop_nr_completed (cs : List io_uring_cqe) :
    ∀ (res : submission_and_completion_result) (i : Nat),
      (reap_loop cs res i).1.nr_completed = res.nr_completed + cs.length := by
  induction cs with
  | nil => intro res i; simp [reap_loop]
  | cons c rest ih =>
    intro res i; simp only [reap_loop, ih, List.length_cons]; push_cast; omega

theorem reap_loop_nr_submitted (cs : List io_uring_cqe) :
    ∀ (res : submission_and_completion_result) (i : Nat),
      (reap_loop cs res i).1.nr_submitted = res.nr_submitted := by
  induction cs with
  | nil => intro res i; simp [reap_loop]
  | cons c rest ih => intro res i; simp only [reap_loop, ih]

theorem reap_loop_frame (cs : List io_uring_cqe) :
    ∀ (res : submission_and_completion_result) (i : Nat) (j : Int),
      (j < res.nr_completed ∨ res.nr_completed + cs.length ≤ j) →
      (reap_loop cs res i).1.completed_res j = res.completed_res j ∧
      (reap_loop cs res i).1.completed_ids j = res.completed_ids j := by
  induction cs with
  | nil => intro res i j _; simp [reap_loop]
  | cons c rest ih =>
    intro res i j hj
    simp only [reap_loop]
    have hne : j ≠ res.nr_completed := by
      simp only [List.length_cons] at hj; push_cast at hj; omega
    have h := ih { res with
        completed_res := store res.completed_res res.nr_completed c.res,
        completed_ids := store res.completed_ids res.nr_completed (cqe_id c),
        nr_completed := res.nr_completed + 1 } (i + 1) j
      (by simp only [List.length_cons] at hj; push_cast at hj; simp only; omega)
    simp only [store, hne, if_false] at h
    exact h

theorem reap_loop_at (cs : List io_uring_cqe) :
    ∀ (res : submission_and_completion_result) (i : Nat) (k : Nat) (hk : k < cs.length),
      (reap_loop cs res i).1.completed_res (res.nr_completed + k) = cs[k].res ∧
      (reap_loop cs res i).1.completed_ids (res.nr_completed + k) = cqe_id cs[k] := by
  induction cs with
  | nil => intro res i k hk; simp at hk
  | cons c rest ih =>
    intro res i k hk
    simp only [reap_loop]
    cases k with
    | zero =>
      have h := reap_loop_frame rest { res with
        completed_res := store res.completed_res res.nr_completed c.res,
        completed_ids := store res.completed_ids res.nr_completed (cqe_id c),
        nr_completed := res.nr_completed + 1 } (i + 1) res.nr_completed
        (by simp only; omega)
      simpa [store] using h
    | succ k =>
      have h := ih { res with
        completed_res := store res.completed_res res.nr_completed c.res,
        completed_ids := store res.completed_ids res.nr_completed (cqe_id c),
        nr_completed := res.nr_completed + 1 } (i + 1) k
        (by simpa using hk)
      simp only [List.getElem_cons_succ]
      have e : res.nr_completed + ((k + 1 : Nat) : Int) = res.nr_completed + 1 + (k : Int) := by
        push_cast; omega
      rw [e]
      exact h

theorem submit_phase_eq (K : Kernel κ) (w : World κ) (subs : List submission)
    (res : submission_and_completion_result) :
    submit_phase K w subs res =
      (if 0 < min subs.length w.ring.sq_free.length then io_uring_submit K (after_loop w subs)
       else if w.ring.flags &&& IORING_SETUP_IOPOLL ≠ 0 then
         (io_uring_peek_cqe K (after_loop w subs)).1
       else after_loop w subs,
       { res with nr_submitted := ((min subs.length w.ring.sq_free.length : Nat) : Int),
                  nr_completed := 0 }) := by
  simp only [submit_phase, submit_loop_eq, after_loop, Bool.false_or, decide_eq_true_eq]
  split_ifs <;> simp

theorem submit_phase_cq_head (K : Kernel κ) (w : World κ) (subs : List submission)
    (res : submission_and_completion_result) :
    (submit_phase K w subs res).1.ring.cq_head = w.ring.cq_head := by
  rw [submit_phase_eq]
  split_ifs <;> simp [io_uring_submit, io_uring_peek_cqe, after_loop]

theorem submit_phase_cq (K : Kernel κ) (w : World κ) (subs : List submission)
    (res : submission_and_completion_result) :
    (submit_phase K w subs res).1.ring.cq =
      w.ring.cq ++
        (if 0 < min subs.length w.ring.sq_free.length then
          (K.enter w.kern (after_loop w subs).ring.sq).2
         else if w.ring.flags &&& IORING_SETUP_IOPOLL ≠ 0 then (K.poll w.kern).2
         else []) := by
  rw [submit_phase_eq]
  split_ifs <;> simp [io_uring_submit, io_uring_peek_cqe, after_loop]

theorem submit_phase_calls (K : Kernel κ) (w : World κ) (subs : List submission)
    (res : submission_and_completion_result) :
    (submit_phase K w subs res).1.calls =
      w.calls ++
        (if 0 < min subs.length w.ring.sq_free.length then
          [Call.submit (after_loop w subs).ring.sq]
         else if w.ring.flags &&& IORING_SETUP_IOPOLL ≠ 0 then [Call.peek_cqe]
         else []) := by
  rw [submit_phase_eq]
  split_ifs <;> simp [io_uring_submit, io_uring_peek_cqe, after_loop]

theorem zipWith_take_left {α β γ : Type} (f : α → β → γ) :
    ∀ (l : List α) (l2 : List β), List.zipWith f l (l2.take l.length) = List.zipWith f l l2 := by
  intro l
  induction l with
  | nil => intro l2; simp
  | cons a l ih =>
    intro l2
    cases l2 with
    | nil => simp
    | cons b l2 => simp [ih]

theorem after_loop_take (w : World κ) (subs : List submission) :
    after_loop w (subs.take w.ring.sq_free.length) = after_loop w subs := by
  simp only [after_loop, zipWith_take_left, List.length_take]
  congr 2
  rcases Nat.le_total subs.length w.ring.sq_free.length with h | h
  · rw [Nat.min_eq_right h]
  · rw [Nat.min_eq_left h, List.drop_of_length_le (le_refl _), List.drop_of_length_le h]

theorem submit_phase_take (K : Kernel κ) (w : World κ) (subs : List submission)
    (res : submission_and_completion_result) :
    submit_phase K w (subs.take w.ring.sq_free.length) res = submit_phase K w subs res := by
  rw [submit_phase_eq, submit_phase_eq, after_loop_take]
  have e : min (subs.take w.ring.sq_free.length).length w.ring.sq_free.length =
      min subs.length w.ring.sq_free.length := by
    simp only [List.length_take]; omega
  rw [e]

theorem to_signed_32_to_unsigned (x : Int) (h : is_int x) :
    to_signed 32 ((to_unsigned 32 x : Nat) : Int) = x := by
  unfold is_int at h
  unfold to_signed to_unsigned
  norm_num
  split_ifs <;> omega

theorem to_signed_64_to_unsigned (x : Int) (h : is_long x) :
    to_signed 64 ((to_unsigned 64 x : Nat) : Int) = x := by
  unfold is_long at h
  unfold to_signed to_unsigned
  norm_num
  split_ifs <;> omega

theorem cqe_id_id_to_data (id r : Int) (h : is_int id) :
    cqe_id { user_data := id_to_data id, res := r } = id := by
  unfold is_int at h
  unfold cqe_id io_uring_cqe_get_data id_to_data to_signed to_unsigned
  norm_num
  split_ifs <;> omega

theorem cqe_id_low_bits (c : io_uring_cqe) :
    to_unsigned 32 (cqe_id c) = c.user_data % 2 ^ 32 := by
  unfold cqe_id io_uring_cqe_get_data to_signed to_unsigned
  norm_num
  split_ifs <;> omega

theorem cqe_id_is_int (c : io_uring_cqe) : is_int (cqe_id c) := by
  unfold is_int cqe_id io_uring_cqe_get_data to_signed
  norm_num
  split_ifs <;> omega

theorem fill_sqe_fields (slot : io_uring_sqe) (s : submission) (h : s.wf) :
    (fill_sqe slot s).opcode =
        (if s.is_read then Opcode.IORING_OP_READ else Opcode.IORING_OP_WRITE) ∧
      (fill_sqe slot s).fd = s.fd ∧
      (fill_sqe slot s).addr = s.buf_base ∧
      to_signed 32 ((fill_sqe slot s).len : Int) = s.buf_length ∧
      to_signed 64 ((fill_sqe slot s).off : Int) = s.offset ∧
      (∀ r : Int, cqe_id { user_data := (fill_sqe slot s).user_data, res := r } = s.id) := by
  obtain ⟨hid, _, hlen, _, hoff⟩ := h
  have hu : (fill_sqe slot s).user_data = id_to_data s.id := by
    have hlt : id_to_data s.id < 18446744073709551616 := by
      unfold id_to_data to_unsigned; norm_num; omega
    cases hr : s.is_read <;>
      simp [fill_sqe, hr, io_uring_sqe_set_data, io_uring_prep_read, io_uring_prep_write,
        io_uring_prep_rw, Nat.mod_eq_of_lt hlt]
  refine ⟨?_, ?_, ?_, ?_, ?_, ?_⟩
  · cases hr : s.is_read <;>
      simp [fill_sqe, hr, io_uring_sqe_set_data, io_uring_prep_read, io_uring_prep_write,
        io_uring_prep_rw]
  · cases hr : s.is_read <;>
      simp [fill_sqe, hr, io_uring_sqe_set_data, io_uring_prep_read, io_uring_prep_write,
        io_uring_prep_rw]
  · cases hr : s.is_read <;>
      simp [fill_sqe, hr, io_uring_sqe_set_data, io_uring_prep_read, io_uring_prep_write,
        io_uring_prep_rw]
  · have e : (fill_sqe slot s).len = to_unsigned 32 s.buf_length := by
      cases hr : s.is_read <;>
        simp [fill_sqe, hr, io_uring_sqe_set_data, io_uring_prep_read, io_uring_prep_write,
          io_uring_prep_rw]
    rw [e]; exact to_signed_32_to_unsigned _ hlen
  · have e : (fill_sqe slot s).off = to_unsigned 64 s.offset := by
      cases hr : s.is_read <;>
        simp [fill_sqe, hr, io_uring_sqe_set_data, io_uring_prep_read, io_uring_prep_write,
          io_uring_prep_rw]
    rw [e]; exact to_signed_64_to_unsigned _ hoff
  · intro r; rw [hu]; exact cqe_id_id_to_data _ _ hid

theorem after_loop_eq (w : World κ) (subs : List submission)
    (res : submission_and_completion_result) (hs : Bool) :
    (submit_loop w subs res hs).1 = after_loop w subs := by
  rw [submit_loop_eq]; rfl

theorem out_calls (K : Kernel κ) (w : World κ) (subs : List submission)
    (res : submission_and_completion_result) :
    (submit_and_check_completions K w subs res).1.calls =
      (submit_phase K w subs res).1.calls ++
        [Call.cq_advance (submit_phase K w subs res).1.ring.cq.length] := by
  simp [submit_and_check_completions, io_uring_cq_advance, reap_loop_count]

theorem fill_sqe_user_data (slot : io_uring_sqe) (s : submission) :
    (fill_sqe slot s).user_data = id_to_data s.id := by
  have hlt : id_to_data s.id < 18446744073709551616 := by
    unfold id_to_data to_unsigned; norm_num; omega
  cases hr : s.is_read <;>
    simp [fill_sqe, hr, io_uring_sqe_set_data, io_uring_prep_read, io_uring_prep_write,
      io_uring_prep_rw, Nat.mod_eq_of_lt hlt]

theorem submit_phase_nr_completed (K : Kernel κ) (w : World κ) (subs : List submission)
    (res : submission_and_completion_result) :
    (submit_phase K w subs res).2.nr_completed = 0 := by
  rw [submit_phase_eq]

theorem out_completed_at (K : Kernel κ) (w : World κ) (subs : List submission)
    (res : submission_and_completion_result) (k : Nat)
    (hk : k < (submit_phase K w subs res).1.ring.cq.length) :
    (submit_and_check_completions K w subs res).2.completed_res (k : Int) =
        ((submit_phase K w subs res).1.ring.cq[k]).res ∧
      (submit_and_check_completions K w subs res).2.completed_ids (k : Int) =
        cqe_id ((submit_phase K w subs res).1.ring.cq[k]) := by
  have h := reap_loop_at (submit_phase K w subs res).1.ring.cq (submit_phase K w subs res).2 0 k hk
  rw [submit_phase_nr_completed, zero_add] at h
  exact h

theorem out_completed_of_getElem? (K : Kernel κ) (w : World κ) (subs : List submission)
    (res : submission_and_completion_result) (k : Nat) (c : io_uring_cqe)
    (hc : (submit_phase K w subs res).1.ring.cq[k]? = some c) :
    (submit_and_check_completions K w subs res).2.completed_res (k : Int) = c.res ∧
      (submit_and_check_completions K w subs res).2.completed_ids (k : Int) = cqe_id c := by
  obtain ⟨hk, e⟩ := List.getElem?_eq_some_iff.mp hc
  have h := out_completed_at K w subs res k hk
  rw [e] at h
  exact h

theorem out_nr_completed (K : Kernel κ) (w : World κ) (subs : List submission)
    (res : submission_and_completion_result) :
    (submit_and_check_completions K w subs res).2.nr_completed =
      ((submit_phase K w subs res).1.ring.cq.length : Int) := by
  simp [submit_and_check_completions, reap_loop_nr_completed, submit_phase_nr_completed]

theorem wait_cqe_head (K : Kernel κ) (w : World κ) :
    (io_uring_wait_cqe K w).1.ring.cq.head? = some (io_uring_wait_cqe K w).2 ∧
      (io_uring_wait_cqe K w).1.ring.cq_head = w.ring.cq_head ∧
      (io_uring_wait_cqe K w).1.calls = w.calls ++ [Call.wait_cqe] := by
  unfold io_uring_wait_cqe
  split
  · next c tl h => simp [h]
  · next h => simp

theorem open_file_eq (K : Kernel κ) (w : World κ) (path : Nat) (readOnly direct : Bool)
    (slot : io_uring_sqe) (rest : List io_uring_sqe) (h : w.ring.sq_free = slot :: rest) :
    open_file K w path readOnly direct =
      ((io_uring_wait_cqe K (io_uring_submit K
          (sq_commit { w with ring := { w.ring with sq_free := rest } }
            (io_uring_prep_openat slot (-1) path (open_flags readOnly direct) 0)))).1,
       (io_uring_wait_cqe K (io_uring_submit K
          (sq_commit { w with ring := { w.ring with sq_free := rest } }
            (io_uring_prep_openat slot (-1) path (open_flags readOnly direct) 0)))).2.res) := by
  simp [open_file, io_uring_get_sqe, h]

theorem close_file_eq (K : Kernel κ) (w : World κ) (fd : Int)
    (slot : io_uring_sqe) (rest : List io_uring_sqe) (h : w.ring.sq_free = slot :: rest) :
    close_file K w fd =
      ((io_uring_wait_cqe K (io_uring_submit K
          (sq_commit { w with ring := { w.ring with sq_free := rest } }
            (io_uring_prep_close slot fd)))).1,
       (io_uring_wait_cqe K (io_uring_submit K
          (sq_commit { w with ring := { w.ring with sq_free := rest } }
            (io_uring_prep_close slot fd)))).2.res) := by
  simp [close_file, io_uring_get_sqe, h]

theorem open_file_full (K : Kernel κ) (w : World κ) (path : Nat) (readOnly direct : Bool)
    (h : w.ring.sq_free = []) : open_file K w path readOnly direct = (w, -1) := by
  simp [open_file, io_uring_get_sqe, h]

theorem close_file_full (K : Kernel κ) (w : World κ) (fd : Int)
    (h : w.ring.sq_free = []) : close_file K w fd = (w, -1) := by
  simp [close_file, io_uring_get_sqe, h]

theorem next_call_reports_head (K : Kernel κ) (w : World κ) (subs : List submission)
    (res : submission_and_completion_result) (c : io_uring_cqe)
    (h : w.ring.cq.head? = some c) :
    1 ≤ (submit_and_check_completions K w subs res).2.nr_completed ∧
      (submit_and_check_completions K w subs res).2.completed_res 0 = c.res ∧
      (submit_and_check_completions K w subs res).2.completed_ids 0 = cqe_id c := by
  obtain ⟨tl, htl⟩ : ∃ tl, w.ring.cq = c :: tl := by
    cases hcq : w.ring.cq with
    | nil => rw [hcq] at h; simp at h
    | cons a tl => rw [hcq] at h; simp at h; exact ⟨tl, by rw [h]⟩
  have hmid := submit_phase_cq K w subs res
  rw [htl] at hmid
  have hget : (submit_phase K w subs res).1.ring.cq[0]? = some c := by rw [hmid]; simp
  have hat := out_completed_of_getElem? K w subs res 0 c hget
  refine ⟨?_, by simpa using hat.1, by simpa using hat.2⟩
  rw [out_nr_completed, hmid]
  simp only [List.cons_append, List.length_cons]
  push_cast
  omega

theorem open_file_calls (K : Kernel κ) (w : World κ) (path : Nat) (readOnly direct : Bool)
    (slot : io_uring_sqe) (rest : List io_uring_sqe) (h : w.ring.sq_free = slot :: rest) :
    (open_file K w path readOnly direct).1.calls =
      w.calls ++
        [Call.submit (w.ring.sq ++
            [io_uring_prep_openat slot (-1) path (open_flags readOnly direct) 0]),
          Call.wait_cqe] := by
  rw [open_file_eq K w path readOnly direct slot rest h]
  simp [(wait_cqe_head K _).2.2, io_uring_submit, sq_commit]

theorem open_flags_spec (readOnly direct : Bool) :
    open_flags readOnly direct =
        (if readOnly then O_RDONLY else O_RDWR) ||| (if direct then O_DIRECT else 0) ∧
      open_flags readOnly direct &&& O_ACCMODE = (if readOnly then O_RDONLY else O_RDWR) ∧
      (open_flags readOnly direct &&& O_DIRECT ≠ 0 ↔ direct = true) ∧
      open_flags readOnly direct &&& (O_ACCMODE ||| O_DIRECT) = open_flags readOnly direct := by
  cases readOnly <;> cases direct <;> decide

theorem out_nr_submitted (K : Kernel κ) (w : World κ) (subs : List submission)
    (res : submission_and_completion_result) :
    (submit_and_check_completions K w subs res).2.nr_submitted =
      ((min subs.length w.ring.sq_free.length : Nat) : Int) := by
  simp only [submit_and_check_completions, reap_loop_nr_submitted]
  rw [submit_phase_eq]

theorem out_take (K : Kernel κ) (w : World κ) (subs : List submission)
    (res : submission_and_completion_result) :
    submit_and_check_completions K w (subs.take w.ring.sq_free.length) res =
      submit_and_check_completions K w subs res := by
  simp only [submit_and_check_completions, submit_phase_take]

theorem out_cq_head (K : Kernel κ) (w : World κ) (subs : List submission)
    (res : submission_and_completion_result) :
    (submit_and_check_completions K w subs res).1.ring.cq_head =
      (w.ring.cq_head + (submit_phase K w subs res).1.ring.cq.length) % 2 ^ 32 := by
  show (io_uring_cq_advance _ _).ring.cq_head = _
  simp only [io_uring_cq_advance, reap_loop_count, zero_add]
  rw [submit_phase_cq_head]

theorem out_cq (K : Kernel κ) (w : World κ) (subs : List submission)
    (res : submission_and_completion_result) :
    (submit_and_check_completions K w subs res).1.ring.cq = [] := by
  show (io_uring_cq_advance _ _).ring.cq = _
  simp [io_uring_cq_advance, reap_loop_count]

theorem admitted_pos_iff (K : Kernel κ) (w : World κ) (subs : List submission)
    (res : submission_and_completion_result) :
    0 < (submit_and_check_completions K w subs res).2.nr_submitted ↔
      0 < min subs.length w.ring.sq_free.length := by
  rw [out_nr_submitted]; exact Int.natCast_pos

theorem reap_step_queue (K : Kernel κ) (w : World κ) (subs : List submission)
    (res : submission_and_completion_result) :
    (submit_phase K w subs res).1.ring.cq =
      w.ring.cq ++
        (if 0 < (submit_and_check_completions K w subs res).2.nr_submitted then
          (K.enter w.kern
            (submit_loop w subs { res with nr_submitted := 0, nr_completed := 0 }
              false).1.ring.sq).2
         else if w.ring.flags &&& IORING_SETUP_IOPOLL ≠ 0 then (K.poll w.kern).2
         else []) := by
  rw [submit_phase_cq, after_loop_eq]
  simp only [admitted_pos_iff]

theorem out_calls_by_case (K : Kernel κ) (w : World κ) (subs : List submission)
    (res : submission_and_completion_result) :
    (submit_and_check_completions K w subs res).1.calls =
      w.calls ++
        (if 0 < (submit_and_check_completions K w subs res).2.nr_submitted then
          [Call.submit
            (submit_loop w subs { res with nr_submitted := 0, nr_completed := 0 }
              false).1.ring.sq]
         else if w.ring.flags &&& IORING_SETUP_IOPOLL ≠ 0 then [Call.peek_cqe]
         else []) ++
        [Call.cq_advance (submit_phase K w subs res).1.ring.cq.length] := by
  rw [out_calls, submit_phase_calls, after_loop_eq]
  simp only [admitted_pos_iff]

theorem close_file_returns_first_ready (K : Kernel κ) (w : World κ) (fd : Int)
    (c : io_uring_cqe) (tl : List io_uring_cqe) (hcq : w.ring.cq = c :: tl)
    (hslot : w.ring.sq_free ≠ []) :
    (close_file K w fd).2 = c.res ∧ (close_file K w fd).1.ring.cq.head? = some c := by
  cases hf : w.ring.sq_free with
  | nil => exact absurd hf hslot
  | cons slot rest =>
    rw [close_file_eq K w fd slot rest hf]
    simp [io_uring_wait_cqe, io_uring_submit, sq_commit, hcq]

theorem open_file_frees_a_slot (K : Kernel κ) (w : World κ) (path : Nat)
    (readOnly direct : Bool) (hslot : w.ring.sq_free ≠ []) :
    (open_file K w path readOnly direct).1.ring.sq_free ≠ [] := by
  cases hf : w.ring.sq_free with
  | nil => exact absurd hf hslot
  | cons slot rest =>
    rw [open_file_eq K w path readOnly direct slot rest hf]
    unfold io_uring_wait_cqe
    split <;> simp [io_uring_submit, sq_commit]

theorem open_file_result_is_head (K : Kernel κ) (w : World κ) (path : Nat)
    (readOnly direct : Bool) (hslot : w.ring.sq_free ≠ []) :
    ∃ c tl, (open_file K w path readOnly direct).1.ring.cq = c :: tl ∧
      (open_file K w path readOnly direct).2 = c.res := by
  cases hf : w.ring.sq_free with
  | nil => exact absurd hf hslot
  | cons slot rest =>
    rw [open_file_eq K w path readOnly direct slot rest hf]
    have hw := (wait_cqe_head K (io_uring_submit K
          (sq_commit { w with ring := { w.ring with sq_free := rest } }
            (io_uring_prep_openat slot (-1) path (open_flags readOnly direct) 0)))).1
    revert hw
    generalize io_uring_wait_cqe K _ = r
    intro hw
    cases hcq : r.1.ring.cq with
    | nil => rw [hcq] at hw; simp at hw
    | cons c tl =>
      rw [hcq] at hw
      simp only [List.head?_cons, Option.some.injEq] at hw
      exact ⟨c, tl, rfl, by rw [hw]⟩

/-- For every kernel and every ring with a free slot, `close_file` called right after
`open_file` returns what `open_file` returned, whatever became of the close request. -/
theorem close_after_open_returns_open_value (K : Kernel κ) (w : World κ) (path : Nat)
    (readOnly direct : Bool) (fd : Int) (hslot : w.ring.sq_free ≠ []) :
    (close_file K (open_file K w path readOnly direct).1 fd).2 =
      (open_file K w path readOnly direct).2 := by
  have hfree := open_file_frees_a_slot K w path readOnly direct hslot
  obtain ⟨c, tl, hcq, hres⟩ := open_file_result_is_head K w path readOnly direct hslot
  rw [(close_file_returns_first_ready K _ fd c tl hcq hfree).1, hres]

theorem close_file_frees_a_slot (K : Kernel κ) (w : World κ) (fd : Int)
    (hslot : w.ring.sq_free ≠ []) : (close_file K w fd).1.ring.sq_free ≠ [] := by
  cases hf : w.ring.sq_free with
  | nil => exact absurd hf hslot
  | cons slot rest =>
    rw [close_file_eq K w fd slot rest hf]
    unfold io_uring_wait_cqe
    split <;> simp [io_uring_submit, sq_commit]

/-- For every kernel and every ring with a free slot, two calls of `close_file` right
after `open_file` both return what `open_file` returned, whatever became of the two close
requests: in particular the second one returns a non-negative value whenever `open_file`
returned a descriptor. -/
theorem closes_after_open_return_open_value (K : Kernel κ) (w : World κ) (path : Nat)
    (readOnly direct : Bool) (fd : Int) (hslot : w.ring.sq_free ≠ []) :
    (close_file K (open_file K w path readOnly direct).1 fd).2 =
        (open_file K w path readOnly direct).2 ∧
      (close_file K (close_file K (open_file K w path readOnly direct).1 fd).1 fd).2 =
        (open_file K w path readOnly direct).2 := by
  have hfree := open_file_frees_a_slot K w path readOnly direct hslot
  obtain ⟨c, tl, hcq, hres⟩ := open_file_result_is_head K w path readOnly direct hslot
  have h1 := close_file_returns_first_ready K _ fd c tl hcq hfree
  have hfree2 := close_file_frees_a_slot K _ fd hfree
  refine ⟨by rw [h1.1, hres], ?_⟩
  cases hcq2 : (close_file K (open_file K w path readOnly direct).1 fd).1.ring.cq with
  | nil => have h := h1.2; rw [hcq2] at h; simp at h
  | cons c2 tl2 =>
    have h := h1.2
    rw [hcq2] at h
    simp only [List.head?_cons, Option.some.injEq] at h
    rw [(close_file_returns_first_ready K _ fd c2 tl2 hcq2 hfree2).1, h, hres]

theorem drop_min_eq {α : Type} (l : List α) (n : Nat) :
    l.drop (min n l.length) = l.drop n := by
  rcases Nat.le_total n l.length with h | h
  · rw [Nat.min_eq_left h]
  · rw [Nat.min_eq_right h, List.drop_of_length_le (le_refl _), List.drop_of_length_le h]

theorem flushed_by_case (K : Kernel κ) (w : World κ) (subs : List submission)
    (res : submission_and_completion_result) :
    flushed ((submit_and_check_completions K w subs res).1.calls.drop w.calls.length) =
      (if 0 < min subs.length w.ring.sq_free.length then
        (submit_loop w subs { res with nr_submitted := 0, nr_completed := 0 } false).1.ring.sq
       else []) := by
  rw [out_calls, submit_phase_calls, after_loop_eq]
  split_ifs <;> simp [flushed]

theorem out_sq (K : Kernel κ) (w : World κ) (subs : List submission)
    (res : submission_and_completion_result) :
    (submit_and_check_completions K w subs res).1.ring.sq =
        (if 0 < min subs.length w.ring.sq_free.length then [] else w.ring.sq) ∧
      (submit_and_check_completions K w subs res).1.ring.sq_free =
        (if 0 < min subs.length w.ring.sq_free.length then
          w.ring.sq_free.drop (min subs.length w.ring.sq_free.length) ++
            (w.ring.sq ++ List.zipWith fill_sqe w.ring.sq_free subs)
         else w.ring.sq_free) := by
  have e : (submit_and_check_completions K w subs res).1.ring.sq =
        (submit_phase K w subs res).1.ring.sq ∧
      (submit_and_check_completions K w subs res).1.ring.sq_free =
        (submit_phase K w subs res).1.ring.sq_free := ⟨rfl, rfl⟩
  rw [e.1, e.2, submit_phase_eq]
  by_cases h : 0 < min subs.length w.ring.sq_free.length
  · simp only [if_pos h]
    simp [io_uring_submit, after_loop, drop_min_eq]
  · simp only [if_neg h]
    have h0 : min subs.length w.ring.sq_free.length = 0 := by omega
    have hz : List.zipWith fill_sqe w.ring.sq_free subs = [] := by
      apply List.eq_nil_of_length_eq_zero
      rw [List.length_zipWith]; omega
    have hd : w.ring.sq_free.drop subs.length = w.ring.sq_free := by
      rw [← drop_min_eq, h0]; rfl
    split_ifs <;> simp [io_uring_peek_cqe, after_loop, hz, hd]

/-! ## The batch call -/

/-- Claim C1: for every ring with `f` free submission slots and every batch of `n`
requests, `submit_and_check_completions` sets `nr_submitted = min n f` (all of them when
`n ≤ f`, exactly `f` when `n > f`), so `0 ≤ nr_submitted ≤ n`; and the whole outcome of
the call (ring, kernel, calls made, result structure) is the one of the call with only the
first `f` requests: the requests beyond the submitted ones play no part and nothing is
reported about them.  The count is the number of requests really admitted: the submission
loop takes exactly `min n f` slots out of the free ones and puts behind the pending entries
exactly `min n f` new ones, the free slots filled in order from the requests in order; when
that number is not zero the flush hands the pending entries followed by these new ones to
the kernel, after which nothing is pending and the slots are free again; when it is zero
nothing is flushed and the submission queue is as it was. -/
theorem submitted_is_min_of_requests_and_free_slots (K : Kernel κ) (w : World κ)
    (subs : List submission) (res : submission_and_completion_result) :
    (submit_and_check_completions K w subs res).2.nr_submitted =
        ((min subs.length w.ring.sq_free.length : Nat) : Int) ∧
      (submit_and_check_completions K w subs res).2.nr_submitted =
        (if subs.length ≤ w.ring.sq_free.length then (subs.length : Int)
         else (w.ring.sq_free.length : Int)) ∧
      0 ≤ (submit_and_check_completions K w subs res).2.nr_submitted ∧
      (submit_and_check_completions K w subs res).2.nr_submitted ≤ (subs.length : Int) ∧
      submit_and_check_completions K w subs res =
        submit_and_check_completions K w (subs.take w.ring.sq_free.length) res ∧
      (submit_loop w subs { res with nr_submitted := 0, nr_completed := 0 } false).1.ring.sq_free
        = w.ring.sq_free.drop (min subs.length w.ring.sq_free.length) ∧
      (submit_loop w subs { res with nr_submitted := 0, nr_completed := 0 } false).1.ring.sq
        = w.ring.sq ++ List.zipWith fill_sqe w.ring.sq_free subs ∧
      (List.zipWith fill_sqe w.ring.sq_free subs).length =
        min subs.length w.ring.sq_free.length ∧
      flushed ((submit_and_check_completions K w subs res).1.calls.drop w.calls.length) =
        (if 0 < min subs.length w.ring.sq_free.length then
          w.ring.sq ++ List.zipWith fill_sqe w.ring.sq_free subs
         else []) ∧
      (submit_and_check_completions K w subs res).1.ring.sq =
        (if 0 < min subs.length w.ring.sq_free.length then [] else w.ring.sq) ∧
      (submit_and_check_completions K w subs res).1.ring.sq_free =
        (if 0 < min subs.length w.ring.sq_free.length then
          w.ring.sq_free.drop (min subs.length w.ring.sq_free.length) ++
            (w.ring.sq ++ List.zipWith fill_sqe w.ring.sq_free subs)
         else w.ring.sq_free) := by
  have h := out_nr_submitted K w subs res
  have hloop := after_loop_eq w subs { res with nr_submitted := 0, nr_completed := 0 } false
  have hfl := flushed_by_case K w subs res
  rw [hloop] at hfl
  refine ⟨h, ?_, ?_, ?_, (out_take K w subs res).symm, ?_, ?_, ?_, hfl, (out_sq K w subs res).1,
    (out_sq K w subs res).2⟩
  · rw [h]; split_ifs with c
    · rw [Nat.min_eq_left c]
    · rw [Nat.min_eq_right (by omega)]
  · rw [h]; omega
  · rw [h]; omega
  · rw [hloop, drop_min_eq]; rfl
  · rw [hloop]; rfl
  · rw [List.length_zipWith, Nat.min_comm]

/-- On a ring with three free slots and one entry pending, of five requests three are
admitted: three slots leave the free ones, and the flush hands four entries to the kernel,
the one that was pending and the three new ones. -/
theorem submitted_is_min_of_requests_and_free_slots_witness :
    (submit_and_check_completions inline_kernel busy4
        [req 1 true, req 2 false, req 3 true, req 4 true, req 5 false] res0).2.nr_submitted
        = 3 ∧
      (submit_loop busy4 [req 1 true, req 2 false, req 3 true, req 4 true, req 5 false]
        { res0 with nr_submitted := 0, nr_completed := 0 } false).1.ring.sq_free = [] ∧
      flushed ((submit_and_check_completions inline_kernel busy4
        [req 1 true, req 2 false, req 3 true, req 4 true, req 5 false] res0).1.calls.drop
          busy4.calls.length) =
        [fill_sqe zero_sqe (req 8 true), fill_sqe zero_sqe (req 1 true),
         fill_sqe zero_sqe (req 2 false), fill_sqe zero_sqe (req 3 true)] :=
  ⟨(submitted_is_min_of_requests_and_free_slots inline_kernel busy4
      [req 1 true, req 2 false, req 3 true, req 4 true, req 5 false] res0).1,
   (submitted_is_min_of_requests_and_free_slots inline_kernel busy4
      [req 1 true, req 2 false, req 3 true, req 4 true, req 5 false] res0).2.2.2.2.2.1,
   (submitted_is_min_of_requests_and_free_slots inline_kernel busy4
      [req 1 true, req 2 false, req 3 true, req 4 true, req 5 false] res0).2.2.2.2.2.2.2.2.1⟩

/-- Claim C2: for every batch of requests whose fields are in the range of their C types,
the submission loop leaves the entries that were already pending in place and adds
`nr_submitted` entries behind them; if any was added, the flush hands exactly this queue
to the kernel; and for every `k < nr_submitted` the `k`-th added entry is built from
request `k`: read or write as the request says, with its descriptor, its buffer address,
its length and its offset (the unsigned fields read back as the signed C type give the
values of the request), and a tag from which the reap step reads back the id of request `k`. -/
theorem pushed_slots_carry_their_requests (K : Kernel κ) (w : World κ)
    (subs : List submission) (res : submission_and_completion_result)
    (hwf : ∀ s ∈ subs, s.wf) :
    let loop := submit_loop w subs { res with nr_submitted := 0, nr_completed := 0 } false
    let out := submit_and_check_completions K w subs res
    (loop.1.ring.sq.length : Int) = (w.ring.sq.length : Int) + out.2.nr_submitted ∧
    loop.1.ring.sq.take w.ring.sq.length = w.ring.sq ∧
    (0 < out.2.nr_submitted →
      flushed (out.1.calls.drop w.calls.length) = loop.1.ring.sq) ∧
    ∀ k : Nat, (k : Int) < out.2.nr_submitted →
      ∃ s q, subs[k]? = some s ∧ loop.1.ring.sq[w.ring.sq.length + k]? = some q ∧
        q.opcode = (if s.is_read then Opcode.IORING_OP_READ else Opcode.IORING_OP_WRITE) ∧
        q.fd = s.fd ∧ q.addr = s.buf_base ∧
        to_signed 32 (q.len : Int) = s.buf_length ∧
        to_signed 64 (q.off : Int) = s.offset ∧
        (∀ r : Int, cqe_id { user_data := q.user_data, res := r } = s.id) := by
  intro loop out
  have hn := out_nr_submitted K w subs res
  have hloop : loop.1 = after_loop w subs := after_loop_eq _ _ _ _
  refine ⟨?_, ?_, ?_, ?_⟩
  · rw [hloop]
    show _ = _ + (submit_and_check_completions K w subs res).2.nr_submitted
    rw [hn]
    simp [after_loop]
    omega
  · rw [hloop]; simp [after_loop]
  · intro hpos
    have hpos2 : 0 < min subs.length w.ring.sq_free.length :=
      (admitted_pos_iff K w subs res).mp hpos
    show flushed ((submit_and_check_completions K w subs res).1.calls.drop w.calls.length) = _
    rw [out_calls, submit_phase_calls, if_pos hpos2, hloop]
    simp [flushed]
  · intro k hk
    have hk2 : k < min subs.length w.ring.sq_free.length := by
      have : (k : Int) < ((min subs.length w.ring.sq_free.length : Nat) : Int) := by
        rw [← hn]; exact hk
      exact_mod_cast this
    have hk3 : k < subs.length := by omega
    have hk4 : k < w.ring.sq_free.length := by omega
    refine ⟨subs[k], fill_sqe w.ring.sq_free[k] subs[k], ?_, ?_,
      fill_sqe_fields _ _ (hwf _ (List.getElem_mem _))⟩
    · simp [hk3]
    · rw [hloop]
      simp only [after_loop]
      rw [List.getElem?_append_right (by omega)]
      simp [hk3, hk4]

/-- On a ring with three free slots and one entry pending, a batch of a read with id -1
and a write with id 5 is pushed whole, and the second entry added is the write. -/
theorem pushed_slots_carry_their_requests_witness :
    (∀ s ∈ [req (-1) true, req 5 false], s.wf) ∧
      ∃ s q, [req (-1) true, req 5 false][1]? = some s ∧
        (submit_loop busy4 [req (-1) true, req 5 false]
          { res0 with nr_submitted := 0, nr_completed := 0 } false).1.ring.sq[
            busy4.ring.sq.length + 1]? = some q ∧
        q.opcode = (if s.is_read then Opcode.IORING_OP_READ else Opcode.IORING_OP_WRITE) ∧
        q.fd = s.fd ∧ q.addr = s.buf_base ∧
        to_signed 32 (q.len : Int) = s.buf_length ∧
        to_signed 64 (q.off : Int) = s.offset ∧
        (∀ r : Int, cqe_id { user_data := q.user_data, res := r } = s.id) :=
  ⟨by decide,
   (pushed_slots_carry_their_requests inline_kernel busy4 [req (-1) true, req 5 false] res0
      (by decide)).2.2.2 1 (by decide)⟩

/-- Claim C3: let `c_0 .. c_{m-1}` be the completions ready at the reap step of a call of
`submit_and_check_completions` (the queue after the flush or peek).  Then
`nr_completed = m`; `completed_res[k]` is the result code of `c_k`, whatever its sign, and
`completed_ids[k]` is the tag of `c_k` read back as a `long` and stored into the `int`
array, in the same order: its low 32 bits are those of the tag, and it is the id itself
when the tag was made from an `int` id.  The peek or flush leaves the consumer position
alone and the reap moves it by exactly `m` (as a 32-bit counter) with one
`io_uring_cq_advance(ring, m)`, after which none of the `m` completions is in the queue:
the completions at the reap step of a later call are only those the kernel posts during
that call. -/
theorem reap_reports_every_ready_completion (K : Kernel κ) (w : World κ)
    (subs : List submission) (res : submission_and_completion_result) :
    let mid := submit_phase K w subs res
    let out := submit_and_check_completions K w subs res
    out.2.nr_completed = (mid.1.ring.cq.length : Int) ∧
    (List.range mid.1.ring.cq.length).map (fun k : Nat => out.2.completed_res (k : Int)) =
      mid.1.ring.cq.map io_uring_cqe.res ∧
    (List.range mid.1.ring.cq.length).map (fun k : Nat => out.2.completed_ids (k : Int)) =
      mid.1.ring.cq.map cqe_id ∧
    mid.1.ring.cq.map (fun c => to_unsigned 32 (cqe_id c)) =
      mid.1.ring.cq.map (fun c => c.user_data % 2 ^ 32) ∧
    (∀ c ∈ mid.1.ring.cq, ∀ id : Int, is_int id → c.user_data = id_to_data id →
      cqe_id c = id) ∧
    mid.1.ring.cq_head = w.ring.cq_head ∧
    out.1.ring.cq_head = (w.ring.cq_head + mid.1.ring.cq.length) % 2 ^ 32 ∧
    out.1.calls = mid.1.calls ++ [Call.cq_advance mid.1.ring.cq.length] ∧
    out.1.ring.cq = [] ∧
    (∀ (subs2 : List submission) (res2 : submission_and_completion_result),
      (submit_phase K out.1 subs2 res2).1.ring.cq =
        (if 0 < (submit_and_check_completions K out.1 subs2 res2).2.nr_submitted then
          (K.enter out.1.kern
            (submit_loop out.1 subs2 { res2 with nr_submitted := 0, nr_completed := 0 }
              false).1.ring.sq).2
         else if out.1.ring.flags &&& IORING_SETUP_IOPOLL ≠ 0 then (K.poll out.1.kern).2
         else [])) := by
  intro mid out
  refine ⟨out_nr_completed K w subs res, ?_, ?_, ?_, ?_, submit_phase_cq_head K w subs res,
    out_cq_head K w subs res, out_calls K w subs res, out_cq K w subs res, ?_⟩
  · apply List.ext_getElem
    · simp
    · intro k h1 h2
      simp only [List.getElem_map, List.getElem_range]
      exact (out_completed_at K w subs res k (by simpa using h1)).1
  · apply List.ext_getElem
    · simp
    · intro k h1 h2
      simp only [List.getElem_map, List.getElem_range]
      exact (out_completed_at K w subs res k (by simpa using h1)).2
  · exact List.map_congr_left (fun c _ => cqe_id_low_bits c)
  · intro c _ id hid hc
    have e : c = { user_data := id_to_data id, res := c.res } := by
      cases c; simp at hc; simp [hc]
    rw [e]; exact cqe_id_id_to_data id c.res hid
  · intro subs2 res2
    have h := reap_step_queue K out.1 subs2 res2
    rw [out_cq K w subs res, List.nil_append] at h
    exact h

/-- On a ring holding two ready completions with the consumer position at `2^32 - 1`, the
first one, tagged from the id -7, is reported with that id, and the position wraps. -/
theorem reap_reports_every_ready_completion_witness :
    is_int (-7) ∧
      cqe_id { user_data := id_to_data (-7), res := -5 } = -7 ∧
      (submit_and_check_completions inline_kernel busy4 [] res0).1.ring.cq_head =
        (busy4.ring.cq_head + (submit_phase inline_kernel busy4 [] res0).1.ring.cq.length)
          % 2 ^ 32 :=
  ⟨by decide,
   (reap_reports_every_ready_completion inline_kernel busy4 [] res0).2.2.2.2.1
      { user_data := id_to_data (-7), res := -5 } (by decide) (-7) (by decide) rfl,
   (reap_reports_every_ready_completion inline_kernel busy4 [] res0).2.2.2.2.2.2.1⟩

/-- Claim C4: for every batch whose ids are 32-bit signed integers (negative ids and 0
included) and every `k < nr_submitted`, the entry that the call flushes to the kernel for
request `k` carries the tag `(uintptr_t) id` of that request, and any completion carrying
the tag of this entry (the kernel copies the tag of an entry into its completion) is
reported with the id of request `k`: whatever the kernel, the ring and the batch of the
call at whose reap step the completion is ready (this very call, when the kernel posts it
during the flush, or a later one) and whatever its position `j` there,
`completed_ids[j]` is the id of request `k` and `completed_res[j]` is its result code.
Reading the tag back as a `long` and storing it into an `int` undoes the cast of the id
through `uintptr_t`. -/
theorem completed_id_is_request_id (K : Kernel κ) (w : World κ)
    (subs : List submission) (res : submission_and_completion_result)
    (hid : ∀ s ∈ subs, is_int s.id) (k : Nat)
    (hk : (k : Int) < (submit_and_check_completions K w subs res).2.nr_submitted) :
    ∃ s q, subs[k]? = some s ∧
      (flushed ((submit_and_check_completions K w subs res).1.calls.drop
        w.calls.length))[w.ring.sq.length + k]? = some q ∧
      q.user_data = id_to_data s.id ∧
      ∀ (κ2 : Type) (K2 : Kernel κ2) (w2 : World κ2) (subs2 : List submission)
        (res2 : submission_and_completion_result) (j : Nat) (c : io_uring_cqe),
        (submit_phase K2 w2 subs2 res2).1.ring.cq[j]? = some c →
        c.user_data = q.user_data →
        (submit_and_check_completions K2 w2 subs2 res2).2.completed_ids (j : Int) = s.id ∧
          (submit_and_check_completions K2 w2 subs2 res2).2.completed_res (j : Int) =
            c.res := by
  have hn := out_nr_submitted K w subs res
  have hk2 : k < min subs.length w.ring.sq_free.length := by
    have : (k : Int) < ((min subs.length w.ring.sq_free.length : Nat) : Int) := by
      rw [← hn]; exact hk
    exact_mod_cast this
  have hk3 : k < subs.length := by omega
  have hk4 : k < w.ring.sq_free.length := by omega
  have hpos : 0 < min subs.length w.ring.sq_free.length := by omega
  refine ⟨subs[k], fill_sqe w.ring.sq_free[k] subs[k], by simp [hk3], ?_,
    fill_sqe_user_data _ _, ?_⟩
  · rw [flushed_by_case, if_pos hpos, after_loop_eq]
    simp only [after_loop]
    rw [List.getElem?_append_right (by omega)]
    simp [hk3, hk4]
  · intro κ2 K2 w2 subs2 res2 j c hj hc
    have hat := out_completed_of_getElem? K2 w2 subs2 res2 j c hj
    have hcid : cqe_id c = subs[k].id := by
      have e : c = { user_data := id_to_data subs[k].id, res := c.res } := by
        rw [fill_sqe_user_data] at hc
        cases c; simp at hc; simp [hc]
      rw [e]
      exact cqe_id_id_to_data _ _ (hid _ (List.getElem_mem _))
    exact ⟨hat.2.trans hcid, hat.1⟩

/-- On an idle ring of depth 4 behind the reference kernel, a read with id -1 and a write
with id 0 on the open descriptor 3 are submitted; the kernel posts their completions, tagged like their entries,
during the flush, and the same call reports them with the ids -1 and 0. -/
theorem completed_id_is_request_id_witness :
    (∀ s ∈ [req (-1) true, req 0 false], is_int s.id) ∧
      (0 : Int) <
        (submit_and_check_completions inline_kernel open4 [req (-1) true, req 0 false]
          res0).2.nr_submitted ∧
      (submit_phase inline_kernel open4 [req (-1) true, req 0 false] res0).1.ring.cq =
        [{ user_data := 18446744073709551615, res := 512 }, { user_data := 0, res := 512 }] ∧
      (submit_and_check_completions inline_kernel open4 [req (-1) true, req 0 false]
        res0).2.completed_ids 0 = -1 := by
  refine ⟨by decide, by decide, by decide, ?_⟩
  obtain ⟨s, q, hs, hq, _, h⟩ :=
    completed_id_is_request_id inline_kernel open4 [req (-1) true, req 0 false] res0
      (by decide) 0 (by decide)
  have hs2 : s = req (-1) true := by
    have e : [req (-1) true, req 0 false][0]? = some (req (-1) true) := by decide
    exact (Option.some.inj (hs.symm.trans e))
  have hq2 : q = fill_sqe zero_sqe (req (-1) true) := by
    have e : (flushed ((submit_and_check_completions inline_kernel open4
        [req (-1) true, req 0 false] res0).1.calls.drop open4.calls.length))[
          open4.ring.sq.length + 0]? = some (fill_sqe zero_sqe (req (-1) true)) := by
      decide
    exact (Option.some.inj (hq.symm.trans e))
  have hfin := (h KState inline_kernel open4 [req (-1) true, req 0 false] res0 0
    { user_data := 18446744073709551615, res := 512 } (by decide)
    (by rw [hq2]; decide)).1
  rw [hs2] at hfin
  exact hfin

/-- Claim C9: in every call of `submit_and_check_completions` the calls made into liburing
are, in order: one `io_uring_submit` of the pending entries when at least one request was
pushed; else one `io_uring_peek_cqe` when the ring has the IOPOLL flag; else nothing (so
also on a ring that has only the SQPOLL flag); and then the one `io_uring_cq_advance` of
the reap.  Neither the flush nor the peek removes a completion or moves the consumer
position: the queue at the reap step is the queue at call time followed by what the kernel
posted in the flush or peek. -/
theorem one_flush_or_one_peek_or_neither (K : Kernel κ) (w : World κ)
    (subs : List submission) (res : submission_and_completion_result) :
    let loop := submit_loop w subs { res with nr_submitted := 0, nr_completed := 0 } false
    let mid := submit_phase K w subs res
    let out := submit_and_check_completions K w subs res
    out.1.calls =
        w.calls ++
          (if 0 < out.2.nr_submitted then [Call.submit loop.1.ring.sq]
           else if w.ring.flags &&& IORING_SETUP_IOPOLL ≠ 0 then [Call.peek_cqe]
           else []) ++
          [Call.cq_advance mid.1.ring.cq.length] ∧
      mid.1.ring.cq =
        w.ring.cq ++
          (if 0 < out.2.nr_submitted then (K.enter w.kern loop.1.ring.sq).2
           else if w.ring.flags &&& IORING_SETUP_IOPOLL ≠ 0 then (K.poll w.kern).2
           else []) ∧
      mid.1.ring.cq_head = w.ring.cq_head :=
  ⟨out_calls_by_case K w subs res, reap_step_queue K w subs res,
    submit_phase_cq_head K w subs res⟩

/-- The three cases on rings of depth 4: a request pushed on a polling ring gives one
flush and no peek; an empty batch on a ring with IOPOLL gives one peek; an empty batch on
a ring with only SQPOLL gives neither. -/
theorem one_flush_or_one_peek_or_neither_witness :
    (submit_and_check_completions inline_kernel (idle4 IORING_SETUP_IOPOLL) [req 1 true]
        res0).1.calls =
        [Call.submit [fill_sqe zero_sqe (req 1 true)], Call.cq_advance 1] ∧
      (submit_and_check_completions inline_kernel (idle4 IORING_SETUP_IOPOLL) [] res0).1.calls =
        [Call.peek_cqe, Call.cq_advance 0] ∧
      (submit_and_check_completions inline_kernel (idle4 IORING_SETUP_SQPOLL) [] res0).1.calls =
        [Call.cq_advance 0] :=
  ⟨(one_flush_or_one_peek_or_neither inline_kernel (idle4 IORING_SETUP_IOPOLL) [req 1 true]
      res0).1,
   (one_flush_or_one_peek_or_neither inline_kernel (idle4 IORING_SETUP_IOPOLL) [] res0).1,
   (one_flush_or_one_peek_or_neither inline_kernel (idle4 IORING_SETUP_SQPOLL) [] res0).1⟩

/-! ## Opening and closing a file -/

/-- Claim C10: `open_file` and `close_file` never move the consumer position of the
completion queue.  When they get a submission slot, the completion whose result code they
return is the first ready completion of the ring they leave, and the next
`submit_and_check_completions` on that ring, whatever the batch (the empty one included),
reports at least one completion, with that result code in `completed_res[0]` and that
tag of that completion, read back, in `completed_ids[0]`. -/
theorem open_and_close_leave_their_completion_queued (K : Kernel κ) (w : World κ)
    (path : Nat) (readOnly direct : Bool) (fd : Int)
    (subs : List submission) (res : submission_and_completion_result) :
    let o := open_file K w path readOnly direct
    let c := close_file K w fd
    o.1.ring.cq_head = w.ring.cq_head ∧ c.1.ring.cq_head = w.ring.cq_head ∧
    (w.ring.sq_free ≠ [] →
      o.1.ring.cq.head?.map io_uring_cqe.res = some o.2 ∧
      c.1.ring.cq.head?.map io_uring_cqe.res = some c.2 ∧
      1 ≤ (submit_and_check_completions K o.1 subs res).2.nr_completed ∧
      (submit_and_check_completions K o.1 subs res).2.completed_res 0 = o.2 ∧
      some ((submit_and_check_completions K o.1 subs res).2.completed_ids 0) =
        o.1.ring.cq.head?.map cqe_id ∧
      1 ≤ (submit_and_check_completions K c.1 subs res).2.nr_completed ∧
      (submit_and_check_completions K c.1 subs res).2.completed_res 0 = c.2 ∧
      some ((submit_and_check_completions K c.1 subs res).2.completed_ids 0) =
        c.1.ring.cq.head?.map cqe_id) := by
  intro o c
  cases hf : w.ring.sq_free with
  | nil =>
    have ho : o = (w, -1) := open_file_full K w path readOnly direct hf
    have hc : c = (w, -1) := close_file_full K w fd hf
    rw [ho, hc]
    exact ⟨rfl, rfl, fun h => absurd rfl h⟩
  | cons slot rest =>
    have ho : o = _ := open_file_eq K w path readOnly direct slot rest hf
    have hc : c = _ := close_file_eq K w fd slot rest hf
    have wo := wait_cqe_head K (io_uring_submit K
          (sq_commit { w with ring := { w.ring with sq_free := rest } }
            (io_uring_prep_openat slot (-1) path (open_flags readOnly direct) 0)))
    have wc := wait_cqe_head K (io_uring_submit K
          (sq_commit { w with ring := { w.ring with sq_free := rest } }
            (io_uring_prep_close slot fd)))
    have no := next_call_reports_head K _ subs res _ wo.1
    have nc := next_call_reports_head K _ subs res _ wc.1
    rw [ho, hc]
    refine ⟨?_, ?_, fun _ => ⟨?_, ?_, no.1, no.2.1, ?_, nc.1, nc.2.1, ?_⟩⟩
    · rw [wo.2.1]; simp [io_uring_submit, sq_commit]
    · rw [wc.2.1]; simp [io_uring_submit, sq_commit]
    · simp only [wo.1, Option.map]
    · simp only [wc.1, Option.map]
    · simp only [wo.1, Option.map, no.2.2]
    · simp only [wc.1, Option.map, nc.2.2]

/-- On an idle ring of depth 4, `open_file` returns descriptor 3, and a reap-only batch
call right after it reports a completion with result 3. -/
theorem open_and_close_leave_their_completion_queued_witness :
    (idle4 0).ring.sq_free ≠ [] ∧
      (open_file inline_kernel (idle4 0) 4096 true true).2 = 3 ∧
      (submit_and_check_completions inline_kernel
        (open_file inline_kernel (idle4 0) 4096 true true).1 [] res0).2.completed_res 0 =
        (open_file inline_kernel (idle4 0) 4096 true true).2 :=
  ⟨by decide, by decide,
   ((open_and_close_leave_their_completion_queued inline_kernel (idle4 0) 4096 true true 3 []
      res0).2.2 (by decide)).2.2.2.1⟩

/-- Claim C5 (evaluation of the code): on an idle ring of depth 4 behind the reference
kernel, `open_file` of an existing file returns descriptor 3.  `close_file(ring, 3)` right
after it returns 3, the result of the open request still at the head of the completion
queue, not the result 0 of the close request it submitted, which is queued behind; and a
second `close_file(ring, 3)` returns 3 again, not the negative result -9 (EBADF) of its own
request, which is queued third. -/
theorem close_after_open_returns_the_open_result :
    (open_file inline_kernel (idle4 0) 4096 true true).2 = 3 ∧
      (close_file inline_kernel (open_file inline_kernel (idle4 0) 4096 true true).1 3).2 = 3 ∧
      (close_file inline_kernel (open_file inline_kernel (idle4 0) 4096 true true).1 3).1.ring.cq
        = [{ user_data := 0, res := 3 }, { user_data := 0, res := 0 }] ∧
      (close_file inline_kernel
        (close_file inline_kernel (open_file inline_kernel (idle4 0) 4096 true true).1 3).1
        3).2 = 3 ∧
      (close_file inline_kernel
        (close_file inline_kernel (open_file inline_kernel (idle4 0) 4096 true true).1 3).1
        3).1.ring.cq
        = [{ user_data := 0, res := 3 }, { user_data := 0, res := 0 },
           { user_data := 0, res := -9 }] := by
  decide

/-- Claim C6: for every path and every combination of `readOnly` and `direct`, when
`open_file` gets a submission slot it flushes, behind the entries already pending, exactly
one entry: an open request for the path with creation mode 0 and flags
`(readOnly ? O_RDONLY : O_RDWR) | (direct ? O_DIRECT : 0)`; the access mode is read-only
or read-write accordingly, the `O_DIRECT` bit is set exactly when `direct` is true, and no
bit outside the access mode and `O_DIRECT` is set. -/
theorem open_request_flags (K : Kernel κ) (w : World κ) (path : Nat)
    (readOnly direct : Bool) (hslot : w.ring.sq_free ≠ []) :
    ∃ q : io_uring_sqe,
      (open_file K w path readOnly direct).1.calls =
        w.calls ++ [Call.submit (w.ring.sq ++ [q]), Call.wait_cqe] ∧
      q.opcode = Opcode.IORING_OP_OPENAT ∧
      q.addr = path ∧
      q.len = 0 ∧
      q.op_flags =
        (if readOnly then O_RDONLY else O_RDWR) ||| (if direct then O_DIRECT else 0) ∧
      q.op_flags &&& O_ACCMODE = (if readOnly then O_RDONLY else O_RDWR) ∧
      (q.op_flags &&& O_DIRECT ≠ 0 ↔ direct = true) ∧
      q.op_flags &&& (O_ACCMODE ||| O_DIRECT) = q.op_flags := by
  cases hf : w.ring.sq_free with
  | nil => exact absurd hf hslot
  | cons slot rest =>
    exact ⟨io_uring_prep_openat slot (-1) path (open_flags readOnly direct) 0,
      open_file_calls K w path readOnly direct slot rest hf, rfl, rfl, rfl,
      open_flags_spec readOnly direct⟩

/-- On an idle ring, `open_file` with `readOnly` false and `direct` true flushes one open
request with flags `O_RDWR | O_DIRECT`. -/
theorem open_request_flags_witness :
    (idle4 0).ring.sq_free ≠ [] ∧
      ∃ q : io_uring_sqe,
        (open_file inline_kernel (idle4 0) 4096 false true).1.calls =
          (idle4 0).calls ++ [Call.submit ((idle4 0).ring.sq ++ [q]), Call.wait_cqe] ∧
        q.opcode = Opcode.IORING_OP_OPENAT ∧
        q.addr = 4096 ∧
        q.len = 0 ∧
        q.op_flags =
          (if false then O_RDONLY else O_RDWR) ||| (if true then O_DIRECT else 0) ∧
        q.op_flags &&& O_ACCMODE = (if false then O_RDONLY else O_RDWR) ∧
        (q.op_flags &&& O_DIRECT ≠ 0 ↔ true = true) ∧
        q.op_flags &&& (O_ACCMODE ||| O_DIRECT) = q.op_flags :=
  ⟨by decide, open_request_flags inline_kernel (idle4 0) 4096 false true (by decide)⟩

/-- Claim C7, as the code has it: for every path and flags, the open request that
`open_file` flushes (behind the entries already pending) carries -1 as its directory
descriptor, which is not `AT_FDCWD`. -/
theorem open_request_directory_descriptor (K : Kernel κ) (w : World κ) (path : Nat)
    (readOnly direct : Bool) (hslot : w.ring.sq_free ≠ []) :
    (flushed ((open_file K w path readOnly direct).1.calls.drop w.calls.length)).map
        io_uring_sqe.fd = w.ring.sq.map io_uring_sqe.fd ++ [-1] ∧
      (-1 : Int) ≠ AT_FDCWD := by
  cases hf : w.ring.sq_free with
  | nil => exact absurd hf hslot
  | cons slot rest =>
    rw [open_file_calls K w path readOnly direct slot rest hf]
    refine ⟨?_, by decide⟩
    simp [flushed, io_uring_prep_openat, io_uring_prep_rw]

/-- On a ring with one read pending on descriptor 3, `open_file` flushes that entry and an
open request whose directory descriptor is -1. -/
theorem open_request_directory_descriptor_witness :
    busy4.ring.sq_free ≠ [] ∧
      (flushed ((open_file inline_kernel busy4 4096 true false).1.calls.drop
          busy4.calls.length)).map io_uring_sqe.fd = busy4.ring.sq.map io_uring_sqe.fd ++ [-1] ∧
      (-1 : Int) ≠ AT_FDCWD :=
  ⟨by decide, open_request_directory_descriptor inline_kernel busy4 4096 true false (by decide)⟩

/-- Claim C7 fails as stated: on an idle ring, the one request `open_file` flushes has
directory descriptor -1, not `AT_FDCWD` (-100). -/
theorem open_request_not_relative_to_cwd :
    (flushed (open_file inline_kernel (idle4 0) 4096 true false).1.calls).map io_uring_sqe.fd
        = [-1] ∧
      ¬ ((flushed (open_file inline_kernel (idle4 0) 4096 true false).1.calls).map
          io_uring_sqe.fd = [AT_FDCWD]) := by
  decide

/-! ## Creating a ring -/

/-- Claim C8, as the code has it: for every depth and flag pair for which
`io_uring_queue_init` fails, `create_ring` returns the address it allocated, the same
value it returns for a creation that succeeds (depth 1, same flags), and the ring object
behind it is not initialised: the failure code is dropped. -/
theorem create_ring_discards_init_failure (p : Nat) (resources : Bool) (depth : Int)
    (enableSQPoll enableIOPoll : Bool)
    (hfail : (io_uring_queue_init resources (to_unsigned 32 depth)
      (setup_flags enableSQPoll enableIOPoll)).1 < 0) :
    (create_ring p resources depth enableSQPoll enableIOPoll).1 = p ∧
      (create_ring p resources depth enableSQPoll enableIOPoll).2 = none ∧
      (create_ring p resources depth enableSQPoll enableIOPoll).1 =
        (create_ring p true 1 enableSQPoll enableIOPoll).1 ∧
      (io_uring_queue_init true (to_unsigned 32 1)
        (setup_flags enableSQPoll enableIOPoll)).1 = 0 := by
  refine ⟨rfl, ?_, rfl, by cases enableSQPoll <;> cases enableIOPoll <;> decide⟩
  unfold create_ring
  unfold io_uring_queue_init at hfail ⊢
  split_ifs at hfail ⊢ with h1 h2
  · rfl
  · rfl
  · simp at hfail

/-- With depth -1 (4294967295 as an unsigned) the queue initialisation fails and
`create_ring` returns the allocated address 4096, as it does for depth 1. -/
theorem create_ring_discards_init_failure_witness :
    (io_uring_queue_init true (to_unsigned 32 (-1)) (setup_flags true false)).1 < 0 ∧
      (create_ring 4096 true (-1) true false).1 = 4096 ∧
      (create_ring 4096 true (-1) true false).2 = none ∧
      (create_ring 4096 true (-1) true false).1 = (create_ring 4096 true 1 true false).1 ∧
      (io_uring_queue_init true (to_unsigned 32 1) (setup_flags true false)).1 = 0 :=
  ⟨by decide, create_ring_discards_init_failure 4096 true (-1) true false (by decide)⟩

/-- Claim C8 fails as stated: with depth 0 the queue initialisation fails, yet
`create_ring` returns a non-null pointer, the very value it returns for depth 4, for which
the initialisation succeeds. -/
theorem create_ring_failure_not_reported :
    (io_uring_queue_init true (to_unsigned 32 0) (setup_flags false false)).1 < 0 ∧
      (create_ring 4096 true 0 false false).1 ≠ 0 ∧
      (create_ring 4096 true 0 false false).1 = (create_ring 4096 true 4 false false).1 ∧
      (io_uring_queue_init true (to_unsigned 32 4) (setup_flags false false)).1 = 0 := by
  decide

end Jfio
